import Mathlib

/-
Verification of the semantic memory subsystem (src/backend/memory_system.py).

The Python classes MemoryEntry and SemanticMemory are shallowly embedded as
Lean structures and pure functions.  Conventions of the embedding:

* Timestamps (datetime values) are integers counting seconds; a duration of
  h hours is h * 3600 seconds and d days is d * 86400 seconds.
* Float vectors are lists over a scalar type; the operational model is stated
  over the rationals, and the normalization facts (which need a square root)
  over the reals.
* The sentence-transformer encoder is external.  A call that may fail is
  modelled by an Option argument holding the encoder output (none models a
  raised exception).  The normalization step (division by the Euclidean
  norm, line 87 and line 108 of memory_system.py) is passed in as a
  function argument so that the same control flow can be instantiated at
  any scalar type; at the reals it is instantiated with normalizeVec below.
* The FAISS IndexFlatIP is embedded as the list of its stored vectors, in
  slot order; its search is exact inner-product search (sort all slots by
  descending score and take k), which is what IndexFlatIP computes.
* Python dictionaries for metadata are association lists of strings.
* File contents are explicit values: an Option models the existence of the
  file on disk.
-/

namespace MemorySystem

/-- A single memory entry, embedding the Python class MemoryEntry
(content, entry type, metadata, creation timestamp, optional embedding). -/
structure MemoryEntry (α : Type) where
  content : String
  entry_type : String
  metadata : List (String × String)
  timestamp : Int
  embedding : Option (List α)
deriving DecidableEq

/-- The mutable state of the Python class SemanticMemory: the configured
embedding dimension, the FAISS index contents (one vector per slot, in slot
order) and the ordered entry list self.memories. -/
structure SemanticMemory (α : Type) where
  embedding_dim : Nat
  index : List (List α)
  memories : List (MemoryEntry α)
deriving DecidableEq

/-- A fresh store as built by SemanticMemory.init before load_memories runs
(lines 71 and 72): an empty IndexFlatIP of the configured dimension and an
empty entry list. -/
def freshStore (α : Type) (dim : Nat) : SemanticMemory α :=
  ⟨dim, [], []⟩

/-- Placeholder entry used to give List.getD a default; the guard
idx < len(self.memories) in search_memories ensures it is never returned. -/
def defaultEntry (α : Type) : MemoryEntry α :=
  ⟨"", "", [], 0, none⟩

/-- SemanticMemory.add_memory (lines 77-98).  The whole body runs inside one
try/except: a raised exception is logged and swallowed.  The encoder result
is the `encoded` argument (none models an encoder exception at line 84, in
which case neither append runs).  After normalization the vector is pushed
into the FAISS index (line 90), which raises when the vector length differs
from the index dimension - that exception is also swallowed, and the entry
list append at line 93 is then never reached. -/
def addMemory (normalize : List α → List α) (s : SemanticMemory α)
    (content entry_type : String) (metadata : List (String × String))
    (now : Int) (encoded : Option (List α)) : SemanticMemory α :=
  match encoded with
  | none => s
  | some raw =>
    let emb := normalize raw
    if emb.length = s.embedding_dim then
      { s with
        index := s.index ++ [emb],
        memories := s.memories ++ [⟨content, entry_type, metadata, now, some emb⟩] }
    else s

/-- Inner product of two float vectors. -/
def dot [LinearOrderedField α] (u v : List α) : α :=
  (List.zipWith (fun a b => a * b) u v).sum

/-- Ordered insertion used by the stable sort below. -/
def orderedInsert (le : β → β → Bool) (a : β) : List β → List β
  | [] => [a]
  | b :: l => if le a b then a :: b :: l else b :: orderedInsert le a l

/-- Stable insertion sort: an element is placed before the first element of
the sorted tail that it is le-related to, so elements that compare equal
keep their original relative order - the guarantee Python's stable
list.sort / sorted gives. -/
def stableSort (le : β → β → Bool) : List β → List β
  | [] => []
  | a :: l => orderedInsert le a (stableSort le l)

/-- Comparison placing higher scores first (slot order preserved on ties). -/
def scoreDescLe [LinearOrderedField α] (p q : α × Nat) : Bool :=
  decide (q.1 ≤ p.1)

/-- faiss.IndexFlatIP.search for a single query: exact inner-product search
returning up to kk (score, slot) pairs by descending score.  Padding slots
that faiss emits when kk exceeds the number of stored vectors (id -1, score
-FLT_MAX) are not modelled; no claim depends on them. -/
def indexSearch [LinearOrderedField α] (index : List (List α)) (q : List α)
    (kk : Nat) : List (α × Nat) :=
  (stableSort scoreDescLe ((index.enum).map (fun p => (dot q p.2, p.1)))).take kk

/-- SemanticMemory.search_memories (lines 100-123).  `encodedQuery` is the
encoder output for the query (none models an encoder exception, caught at
line 121, returning []).  The index is searched with min(k, len(memories))
and each candidate passes the filter similarity >= min_similarity and
idx < len(self.memories) (line 116). -/
def searchMemories [LinearOrderedField α] (normalize : List α → List α)
    (s : SemanticMemory α) (encodedQuery : Option (List α)) (k : Nat)
    (min_similarity : α) : List (MemoryEntry α × α) :=
  if s.memories.length = 0 then []
  else
    match encodedQuery with
    | none => []
    | some qraw =>
      let q := normalize qraw
      let cands := indexSearch s.index q (min k s.memories.length)
      cands.filterMap (fun p =>
        if min_similarity ≤ p.1 ∧ p.2 < s.memories.length then
          some (s.memories.getD p.2 (defaultEntry α), p.1)
        else none)

/-- Comparison placing later timestamps first (stable on ties). -/
def tsDescLe (a b : MemoryEntry α) : Bool :=
  decide (b.timestamp ≤ a.timestamp)

/-- SemanticMemory.get_recent_memories (lines 125-140): filter by
timestamp >= now - hours, optionally filter by entry type (Python's
`if entry_types:` is false both for None and for an empty list), then sort
by timestamp descending. -/
def getRecentMemories (s : SemanticMemory α) (now : Int) (hours : Int)
    (entry_types : Option (List String)) : List (MemoryEntry α) :=
  let cutoff := now - hours * 3600
  let recent := s.memories.filter (fun m => decide (cutoff ≤ m.timestamp))
  let filtered :=
    match entry_types with
    | none => recent
    | some tys =>
      if tys = [] then recent
      else recent.filter (fun m => decide (m.entry_type ∈ tys))
  stableSort tsDescLe filtered

/-- Python str.upper for the ASCII entry-type names used here. -/
def strUpper (s : String) : String :=
  String.mk (s.data.map Char.toUpper)

/-- The rendering at line 169: "[TYPE] content". -/
def renderEntry (m : MemoryEntry α) : String :=
  "[" ++ strUpper m.entry_type ++ "] " ++ m.content

/-- The deduplication loop at lines 153-159: keep the first pair carrying
each content string. -/
def dedupeByContent : List (MemoryEntry α × α) → List String →
    List (MemoryEntry α × α)
  | [], _ => []
  | p :: rest, seen =>
    if p.1.content ∈ seen then dedupeByContent rest seen
    else p :: dedupeByContent rest (p.1.content :: seen)

/-- The sort key at line 162: (similarity, timestamp) descending,
original order kept on full ties (Python sort is stable). -/
def ctxDescLe [LinearOrderedField α] (a b : MemoryEntry α × α) : Bool :=
  decide (b.2 < a.2 ∨ (b.2 = a.2 ∧ b.1.timestamp ≤ a.1.timestamp))

/-- The greedy budget loop at lines 165-174: the running total counts only
the accepted entry texts; the loop breaks at the first text that would push
the total past max_context_length. -/
def takeWithinBudget (max_context_length : Nat) :
    Nat → List String → List String
  | _, [] => []
  | current_length, t :: ts =>
    if max_context_length < current_length + t.length then []
    else t :: takeWithinBudget max_context_length (current_length + t.length) ts

/-- Python's "\n".join. -/
def joinLines : List String → String
  | [] => ""
  | [t] => t
  | t :: ts => t ++ "\n" ++ joinLines ts

/-- The list of accepted rendered entries built by
SemanticMemory.get_conversation_context (lines 142-174): similarity search
with k=10, min_similarity=0.2; recent conversation/file_data entries of the
last 2 hours with similarity 0.0; deduplicate by content; stable sort by
(similarity, timestamp) descending; then the greedy budget loop. -/
def contextParts [LinearOrderedField α] (normalize : List α → List α)
    (s : SemanticMemory α) (encodedQuery : Option (List α))
    (max_context_length : Nat) (now : Int) : List String :=
  let relevant := searchMemories normalize s encodedQuery 10 (1/5 : α)
  let recent := getRecentMemories s now 2 (some ["conversation", "file_data"])
  let combined := relevant ++ recent.map (fun m => (m, (0 : α)))
  let uniq := dedupeByContent combined []
  let sorted := stableSort ctxDescLe uniq
  takeWithinBudget max_context_length 0 (sorted.map (fun p => renderEntry p.1))

/-- SemanticMemory.get_conversation_context (lines 142-180): the accepted
rendered entries joined with newline separators (line 176). -/
def getConversationContext [LinearOrderedField α] (normalize : List α → List α)
    (s : SemanticMemory α) (encodedQuery : Option (List α))
    (max_context_length : Nat) (now : Int) : String :=
  joinLines (contextParts normalize s encodedQuery max_context_length now)

/-- One record of the persisted memories.json file, as produced by
MemoryEntry.to_dict (lines 32-39): timestamp serialized via isoformat /
fromisoformat is an exact round trip, so it stays an integer here. -/
structure EntryRecord (α : Type) where
  content : String
  entry_type : String
  metadata : List (String × String)
  timestamp : Int
  embedding : Option (List α)
deriving DecidableEq

/-- MemoryEntry.to_dict (lines 32-39). -/
def toDict (m : MemoryEntry α) : EntryRecord α :=
  ⟨m.content, m.entry_type, m.metadata, m.timestamp, m.embedding⟩

/-- MemoryEntry.from_dict (lines 41-51).  The constructor applies
`metadata or {}` (identity on a present dictionary, empty for an empty
one), and the embedding is restored only when `data.get('embedding')` is
truthy - a stored empty vector is dropped like a null. -/
def fromDict [DecidableEq α] (d : EntryRecord α) : MemoryEntry α :=
  { content := d.content
    entry_type := d.entry_type
    metadata := if d.metadata = [] then [] else d.metadata
    timestamp := d.timestamp
    embedding :=
      match d.embedding with
      | none => none
      | some v => if v = [] then none else some v }

/-- SemanticMemory.save_memories (lines 221-236): the memories.json record
list and the faiss_index.bin vector array. -/
def saveMemories (s : SemanticMemory α) :
    List (EntryRecord α) × List (List α) :=
  (s.memories.map toDict, s.index)

/-- The rebuild branch of load_memories (lines 254-262): gather the stored
embeddings in entry order and, when any exist, push them onto the current
index (self.index.add at line 262 appends to whatever index the instance
already holds); with no embeddings the index is left untouched. -/
def rebuildFromEmbeddings (base : List (List α)) (mems : List (MemoryEntry α)) :
    List (List α) :=
  let embeddings := mems.filterMap (fun m => m.embedding)
  if embeddings.isEmpty then base else base ++ embeddings

/-- SemanticMemory.load_memories (lines 238-267).  The Option arguments
model file existence.  With no memories.json nothing happens.  Otherwise
the entries are deserialized, and the index artifact is installed verbatim
whenever the file exists and the loaded entry list is non-empty (line 251);
only otherwise is the index rebuilt from the stored embeddings. -/
def loadMemories [DecidableEq α] (s : SemanticMemory α)
    (memoriesFile : Option (List (EntryRecord α)))
    (indexFile : Option (List (List α))) : SemanticMemory α :=
  match memoriesFile with
  | none => s
  | some data =>
    let mems := data.map fromDict
    let idx :=
      match indexFile with
      | some stored =>
        if 0 < mems.length then stored else rebuildFromEmbeddings s.index mems
      | none => rebuildFromEmbeddings s.index mems
    { s with memories := mems, index := idx }

/-- A save followed by a load into a fresh instance (the startup path:
SemanticMemory.init builds an empty index at line 71 and then calls
load_memories at line 75, finding both files written by save_memories). -/
def saveLoadCycle [DecidableEq α] (s : SemanticMemory α) : SemanticMemory α :=
  loadMemories (freshStore α s.embedding_dim)
    (some (saveMemories s).1) (some (saveMemories s).2)

/-- SemanticMemory.clear_old_memories (lines 269-298): keep the entries
with timestamp >= now - days; when any entry survives and at least one
survivor has an embedding, a fresh index is filled with exactly the
survivors' embeddings (lines 283-288); when survivors exist but none has
an embedding the index is left as it was (the `if embeddings:` guard at
line 285 skips the reset); with no survivors the index is reset empty. -/
def clearOldMemories (s : SemanticMemory α) (now : Int) (days : Int) :
    SemanticMemory α :=
  let cutoff := now - days * 86400
  let new_memories := s.memories.filter (fun m => decide (cutoff ≤ m.timestamp))
  let idx :=
    if new_memories.isEmpty then []
    else
      let embeddings := new_memories.filterMap (fun m => m.embedding)
      if embeddings.isEmpty then s.index else embeddings
  { s with memories := new_memories, index := idx }

/-- The total_memories field of SemanticMemory.get_memory_stats
(lines 300-318): 0 for an empty store, len(self.memories) otherwise. -/
def statsTotal (s : SemanticMemory α) : Nat :=
  if s.memories.isEmpty then 0 else s.memories.length

/-- The index_size field of get_memory_stats: self.index.ntotal. -/
def indexSize (s : SemanticMemory α) : Nat :=
  s.index.length

/-- Sum of squares of a real vector. -/
noncomputable def sumSquares (v : List ℝ) : ℝ :=
  (v.map (fun x => x * x)).sum

/-- np.linalg.norm: the Euclidean norm of a vector. -/
noncomputable def npLinalgNorm (v : List ℝ) : ℝ :=
  Real.sqrt (sumSquares v)

/-- The normalization at lines 87 and 108:
embedding / np.linalg.norm(embedding), componentwise. -/
noncomputable def normalizeVec (v : List ℝ) : List ℝ :=
  v.map (fun x => x / npLinalgNorm v)

theorem mem_orderedInsert (le : β → β → Bool) (x a : β) (l : List β) :
    a ∈ orderedInsert le x l ↔ a = x ∨ a ∈ l := by
  induction l with
  | nil => simp [orderedInsert]
  | cons b l ih =>
    by_cases h : le x b
    · simp [orderedInsert, h]
    · simp [orderedInsert, h, ih]
      tauto

theorem mem_stableSort (le : β → β → Bool) (a : β) (l : List β) :
    a ∈ stableSort le l ↔ a ∈ l := by
  induction l with
  | nil => simp [stableSort]
  | cons b l ih => simp [stableSort, mem_orderedInsert, ih]

theorem mem_of_mem_dedupe (p : MemoryEntry α × α) :
    ∀ (l : List (MemoryEntry α × α)) (seen : List String),
      p ∈ dedupeByContent l seen → p ∈ l := by
  intro l
  induction l with
  | nil => intro seen h; simp [dedupeByContent] at h
  | cons q l ih =>
    intro seen h
    by_cases hq : q.1.content ∈ seen
    · simp [dedupeByContent, hq] at h
      exact List.mem_cons_of_mem q (ih _ h)
    · simp [dedupeByContent, hq] at h
      rcases h with h | h
      · simp [h]
      · exact List.mem_cons_of_mem q (ih _ h)

theorem mem_of_mem_takeWithinBudget (maxLen : Nat) (t : String) :
    ∀ (ts : List String) (cur : Nat),
      t ∈ takeWithinBudget maxLen cur ts → t ∈ ts := by
  intro ts
  induction ts with
  | nil => intro cur h; simp [takeWithinBudget] at h
  | cons u ts ih =>
    intro cur h
    by_cases hc : maxLen < cur + u.length
    · simp [takeWithinBudget, hc] at h
    · simp [takeWithinBudget, hc] at h
      rcases h with h | h
      · simp [h]
      · exact List.mem_cons_of_mem u (ih _ h)

theorem takeWithinBudget_sum (maxLen : Nat) :
    ∀ (ts : List String) (cur : Nat),
      cur + ((takeWithinBudget maxLen cur ts).map String.length).sum ≤ maxLen ∨
        takeWithinBudget maxLen cur ts = [] := by
  intro ts
  induction ts with
  | nil => intro cur; right; rfl
  | cons u ts ih =>
    intro cur
    by_cases hc : maxLen < cur + u.length
    · right; simp [takeWithinBudget, hc]
    · left
      rcases ih (cur + u.length) with h | h
      · simpa [takeWithinBudget, hc, Nat.add_assoc] using h
      · simp [takeWithinBudget, hc, h]
        omega

theorem joinLines_length (parts : List String) (h : parts ≠ []) :
    (joinLines parts).length + 1 = (parts.map String.length).sum + parts.length := by
  induction parts with
  | nil => exact absurd rfl h
  | cons t ts ih =>
    cases ts with
    | nil => simp [joinLines]
    | cons u us =>
      have hne : u :: us ≠ ([] : List String) := by simp
      have := ih hne
      have h1 : ("\n" : String).length = 1 := rfl
      simp only [joinLines, String.length_append, h1, List.map_cons,
        List.sum_cons, List.length_cons] at *
      omega

theorem length_filterMap_embedding (l : List (MemoryEntry α)) :
    (l.filterMap (fun m => m.embedding)).length
      = (l.filter (fun m => m.embedding.isSome)).length := by
  induction l with
  | nil => rfl
  | cons m l ih =>
    cases h : m.embedding with
    | none => simpa [List.filterMap_cons, List.filter_cons, h] using ih
    | some v => simpa [List.filterMap_cons, List.filter_cons, h] using ih

theorem statsTotal_eq_length (s : SemanticMemory α) :
    statsTotal s = s.memories.length := by
  cases h : s.memories with
  | nil => simp [statsTotal, h]
  | cons m l => simp [statsTotal, h]

theorem fst_mem_memories_of_mem_search [LinearOrderedField α]
    (normalize : List α → List α) (s : SemanticMemory α)
    (q : Option (List α)) (k : Nat) (t : α) (p : MemoryEntry α × α)
    (hp : p ∈ searchMemories normalize s q k t) : p.1 ∈ s.memories := by
  unfold searchMemories at hp
  split at hp
  · simp at hp
  · cases q with
    | none => simp at hp
    | some qraw =>
      simp only [List.mem_filterMap] at hp
      obtain ⟨c, _, hc⟩ := hp
      by_cases hg : t ≤ c.1 ∧ c.2 < s.memories.length
      · rw [if_pos hg] at hc
        have hp1 : p.1 = s.memories.getD c.2 (defaultEntry α) := by
          cases hc; rfl
        rw [hp1, List.getD_eq_getElem s.memories (defaultEntry α) hg.2]
        exact List.getElem_mem hg.2
      · rw [if_neg hg] at hc
        exact absurd hc (by simp)

theorem snd_ge_of_mem_search [LinearOrderedField α]
    (normalize : List α → List α) (s : SemanticMemory α)
    (q : Option (List α)) (k : Nat) (t : α) (p : MemoryEntry α × α)
    (hp : p ∈ searchMemories normalize s q k t) : t ≤ p.2 := by
  unfold searchMemories at hp
  split at hp
  · simp at hp
  · cases q with
    | none => simp at hp
    | some qraw =>
      simp only [List.mem_filterMap] at hp
      obtain ⟨c, _, hc⟩ := hp
      by_cases hg : t ≤ c.1 ∧ c.2 < s.memories.length
      · rw [if_pos hg] at hc
        have hp2 : p.2 = c.1 := by cases hc; rfl
        rw [hp2]; exact hg.1
      · rw [if_neg hg] at hc
        exact absurd hc (by simp)

theorem mem_memories_of_mem_recent (s : SemanticMemory α) (now hours : Int)
    (tys : Option (List String)) (m : MemoryEntry α)
    (hm : m ∈ getRecentMemories s now hours tys) : m ∈ s.memories := by
  unfold getRecentMemories at hm
  rw [mem_stableSort] at hm
  cases tys with
  | none => exact List.mem_of_mem_filter hm
  | some l =>
    by_cases hl : l = []
    · simp only [hl, if_pos rfl] at hm
      exact List.mem_of_mem_filter hm
    · simp only [if_neg hl] at hm
      exact List.mem_of_mem_filter (List.mem_of_mem_filter hm)

theorem filterMap_threshold_mono [LinearOrderedField α] (s : SemanticMemory α)
    (t1 t2 : α) (h12 : t1 ≤ t2) (cands : List (α × Nat)) :
    (cands.filterMap (fun p =>
        if t2 ≤ p.1 ∧ p.2 < s.memories.length then
          some (s.memories.getD p.2 (defaultEntry α), p.1) else none)).length
      ≤ (cands.filterMap (fun p =>
        if t1 ≤ p.1 ∧ p.2 < s.memories.length then
          some (s.memories.getD p.2 (defaultEntry α), p.1) else none)).length := by
  induction cands with
  | nil => simp
  | cons c cs ih =>
    by_cases h2 : t2 ≤ c.1 ∧ c.2 < s.memories.length
    · have h1 : t1 ≤ c.1 ∧ c.2 < s.memories.length := ⟨le_trans h12 h2.1, h2.2⟩
      simpa [List.filterMap_cons, h2, h1] using ih
    · by_cases h1 : t1 ≤ c.1 ∧ c.2 < s.memories.length
      · simp only [List.filterMap_cons, if_pos h1, if_neg h2, List.length_cons]
        exact le_trans ih (Nat.le_succ _)
      · simpa [List.filterMap_cons, h2, h1] using ih

theorem ite_nil_eq_self [DecidableEq γ] (l : List γ) :
    (if l = [] then ([] : List γ) else l) = l := by
  split <;> simp_all

theorem fromDict_toDict [DecidableEq α] (m : MemoryEntry α)
    (h : m.embedding ≠ some []) : fromDict (toDict m) = m := by
  obtain ⟨c, t, md, ts, emb⟩ := m
  cases emb with
  | none => simp [fromDict, toDict, ite_nil_eq_self]
  | some v =>
    have hv : v ≠ [] := fun hv => h (by simp [hv])
    simp [fromDict, toDict, ite_nil_eq_self, hv]

theorem map_fromDict_toDict [DecidableEq α] (l : List (MemoryEntry α))
    (h : ∀ m ∈ l, m.embedding ≠ some []) :
    (l.map toDict).map fromDict = l := by
  rw [List.map_map]
  have : ∀ m ∈ l, (fromDict ∘ toDict) m = id m := fun m hm =>
    fromDict_toDict m (h m hm)
  rw [List.map_congr_left this, List.map_id]

theorem sumSquares_cons (x : ℝ) (xs : List ℝ) :
    sumSquares (x :: xs) = x * x + sumSquares xs := by
  simp [sumSquares]

theorem sumSquares_nonneg (v : List ℝ) : 0 ≤ sumSquares v := by
  induction v with
  | nil => simp [sumSquares]
  | cons x xs ih =>
    rw [sumSquares_cons]
    exact add_nonneg (mul_self_nonneg x) ih

theorem sumSquares_map_div (v : List ℝ) (c : ℝ) :
    sumSquares (v.map (fun x => x / c)) = sumSquares v / (c * c) := by
  induction v with
  | nil => simp [sumSquares]
  | cons x xs ih =>
    rw [List.map_cons, sumSquares_cons, sumSquares_cons, ih,
      div_mul_div_comm, div_add_div_same]

theorem npLinalgNorm_normalizeVec (v : List ℝ) (h : npLinalgNorm v ≠ 0) :
    npLinalgNorm (normalizeVec v) = 1 := by
  have hss : sumSquares v ≠ 0 := by
    intro h0
    exact h (by simp [npLinalgNorm, h0, Real.sqrt_zero])
  have hnn := sumSquares_nonneg v
  unfold normalizeVec
  unfold npLinalgNorm
  rw [sumSquares_map_div]
  rw [Real.mul_self_sqrt hnn, div_self hss, Real.sqrt_one]

/-- C1 counterexample: with an embedding-provider failure (encoder raises,
modelled by the none argument), add_memory on an empty store does NOT append
the entry to the entry list - the exception jumps from line 84 straight to
the handler at line 97, skipping the append at line 93, so the entry count
does not grow by one as the claim requires. -/
theorem C1_counterexample :
    ¬ ((addMemory id (freshStore ℚ 2) "hello" "conversation" [] 0
          none).memories.length
        = (freshStore ℚ 2).memories.length + 1) := by
  simp [addMemory, freshStore]

/-- C1 (amended): when the embedding provider fails during add, the error is
caught and add itself does not fail, but the entry is appended neither to
the entry list nor to the vector index - the store is returned completely
unchanged, so the entry is not retrievable by recent() and not counted by
stats(). -/
theorem C1_embedding_failure_drops_entry (normalize : List ℚ → List ℚ)
    (s : SemanticMemory ℚ) (content entry_type : String)
    (metadata : List (String × String)) (now : Int) :
    addMemory normalize s content entry_type metadata now none = s := rfl

/-- C4 counterexample: pushing a 3-component vector into a 2-dimensional
index raises inside faiss at line 90, but the blanket except at line 97
swallows it like every other error: add_memory returns normally, the caller
sees no failure of any kind, and the entry has silently disappeared - the
opposite of the claimed explicit surfacing of DimensionMismatch. -/
theorem C4_counterexample :
    addMemory id (freshStore ℚ 2) "x" "analysis" [] 0 (some [1, 2, 3])
        = freshStore ℚ 2 ∧
      (addMemory id (freshStore ℚ 2) "x" "analysis" [] 0
          (some [1, 2, 3])).memories = [] := by
  constructor <;> simp [addMemory, freshStore]

/-- C4 (amended): a dimension mismatch during add is caught by the same
blanket handler as embedding-provider errors: add returns normally with the
store unchanged and the entry silently dropped; no structural error is ever
surfaced to the caller. -/
theorem C4_dimension_mismatch_swallowed (normalize : List ℚ → List ℚ)
    (s : SemanticMemory ℚ) (content entry_type : String)
    (metadata : List (String × String)) (now : Int) (raw : List ℚ)
    (h : (normalize raw).length ≠ s.embedding_dim) :
    addMemory normalize s content entry_type metadata now (some raw) = s := by
  simp [addMemory, h]

/-- C4 witness: the amended theorem applied to a concrete 3-vector pushed
into a 2-dimensional store. -/
theorem C4_witness :
    addMemory id (freshStore ℚ 2) "x" "analysis" [] 0 (some [1, 2, 3])
      = freshStore ℚ 2 :=
  C4_dimension_mismatch_swallowed id (freshStore ℚ 2) "x" "analysis" [] 0
    [1, 2, 3] (by simp [freshStore])

/-- C7: every pair returned by search_memories has similarity at least
min_similarity, and raising the threshold never increases the number of
results (the candidate pool handed to the filter does not depend on the
threshold). -/
theorem C7_threshold_filtering (normalize : List ℚ → List ℚ)
    (s : SemanticMemory ℚ) (q : Option (List ℚ)) (k : Nat) (t t1 t2 : ℚ)
    (h12 : t1 ≤ t2) :
    (∀ p ∈ searchMemories normalize s q k t, t ≤ p.2) ∧
      (searchMemories normalize s q k t2).length
        ≤ (searchMemories normalize s q k t1).length := by
  constructor
  · intro p hp
    exact snd_ge_of_mem_search normalize s q k t p hp
  · unfold searchMemories
    split
    · exact le_refl 0
    · cases q with
      | none => exact le_refl 0
      | some qraw => exact filterMap_threshold_mono s t1 t2 h12 _

/-- C7 witness: the theorem applied to a concrete one-entry store and the
thresholds 0 and 1/2. -/
theorem C7_witness :
    (∀ p ∈ searchMemories id
        (⟨1, [[1]], [⟨"a", "conversation", [], 0, some [1]⟩]⟩ : SemanticMemory ℚ)
        (some [1]) 5 0, (0 : ℚ) ≤ p.2) ∧
      (searchMemories id
          (⟨1, [[1]], [⟨"a", "conversation", [], 0, some [1]⟩]⟩ : SemanticMemory ℚ)
          (some [1]) 5 (1/2)).length
        ≤ (searchMemories id
            (⟨1, [[1]], [⟨"a", "conversation", [], 0, some [1]⟩]⟩ : SemanticMemory ℚ)
            (some [1]) 5 0).length := by
  have h := C7_threshold_filtering id
    (⟨1, [[1]], [⟨"a", "conversation", [], 0, some [1]⟩]⟩ : SemanticMemory ℚ)
    (some [1]) 5 0 0 (1/2) (by norm_num)
  exact ⟨h.1, h.2⟩

/-- C9 counterexample: on an embedding-provider failure the entry is lost
entirely (see C1), so stats().total does not grow by one after this add -
the claim quantifies over every add call, including failing ones. -/
theorem C9_counterexample :
    ¬ (statsTotal (addMemory id (freshStore ℚ 2) "hello" "conversation" [] 0 none)
        = statsTotal (freshStore ℚ 2) + 1) := by
  simp [addMemory, statsTotal, freshStore]

/-- C9 (amended): when the embedding computation succeeds and the vector has
the configured dimension, stats().total after add is exactly its previous
value plus 1, and the new entry is in the result of get_recent_memories for
every positive hour window evaluated at the insertion time. -/
theorem C9_add_success_growth (normalize : List ℚ → List ℚ)
    (s : SemanticMemory ℚ) (content entry_type : String)
    (metadata : List (String × String)) (now : Int) (raw : List ℚ)
    (hdim : (normalize raw).length = s.embedding_dim)
    (hours : Int) (hh : 0 < hours) :
    statsTotal (addMemory normalize s content entry_type metadata now (some raw))
        = statsTotal s + 1 ∧
      (⟨content, entry_type, metadata, now, some (normalize raw)⟩ : MemoryEntry ℚ)
        ∈ getRecentMemories
            (addMemory normalize s content entry_type metadata now (some raw))
            now hours none := by
  constructor
  · rw [statsTotal_eq_length, statsTotal_eq_length]
    simp [addMemory, hdim]
  · unfold getRecentMemories
    rw [mem_stableSort]
    rw [List.mem_filter]
    constructor
    · simp [addMemory, hdim]
    · simp only [decide_eq_true_eq]
      omega

/-- C9 witness: the amended theorem applied to a concrete successful add on
an empty one-dimensional store with a one-hour window. -/
theorem C9_witness :
    statsTotal (addMemory id (freshStore ℚ 1) "c" "conversation" [] 0 (some [1]))
        = statsTotal (freshStore ℚ 1) + 1 ∧
      (⟨"c", "conversation", [], 0, some (id [1])⟩ : MemoryEntry ℚ)
        ∈ getRecentMemories
            (addMemory id (freshStore ℚ 1) "c" "conversation" [] 0 (some [1]))
            0 1 none :=
  C9_add_success_growth id (freshStore ℚ 1) "c" "conversation" [] 0 [1]
    (by simp [freshStore]) 1 (by norm_num)

/-- C10: even on a state whose index holds more vectors than there are
entries (a stale oversized index artifact loaded from disk), every pair
returned by search_memories refers to an existing entry of the entry list -
candidates with a slot index at or beyond the entry-list length are dropped
by the idx < len(self.memories) guard at line 116. -/
theorem C10_no_out_of_range_entry (normalize : List ℚ → List ℚ)
    (s : SemanticMemory ℚ) (q : Option (List ℚ)) (k : Nat) (t : ℚ)
    (hstale : s.memories.length < s.index.length) :
    ∀ p ∈ searchMemories normalize s q k t, p.1 ∈ s.memories := by
  intro p hp
  exact fst_mem_memories_of_mem_search normalize s q k t p hp

/-- C10 witness: the theorem applied to a store holding one entry but a
two-vector index. -/
theorem C10_witness :
    (⟨1, [[1], [1]], [⟨"a", "conversation", [], 0, some [1]⟩]⟩
        : SemanticMemory ℚ).memories.length
      < (⟨1, [[1], [1]], [⟨"a", "conversation", [], 0, some [1]⟩]⟩
        : SemanticMemory ℚ).index.length ∧
    ∀ p ∈ searchMemories id
        (⟨1, [[1], [1]], [⟨"a", "conversation", [], 0, some [1]⟩]⟩
          : SemanticMemory ℚ) (some [1]) 5 0,
      p.1 ∈ (⟨1, [[1], [1]], [⟨"a", "conversation", [], 0, some [1]⟩]⟩
        : SemanticMemory ℚ).memories :=
  ⟨by simp,
    C10_no_out_of_range_entry id
      (⟨1, [[1], [1]], [⟨"a", "conversation", [], 0, some [1]⟩]⟩
        : SemanticMemory ℚ) (some [1]) 5 0 (by simp)⟩

/-- C2 counterexample: the persisted entries file holds one record with a
stored embedding, while the persisted index artifact holds two vectors, so
the artifact's vector count (2) differs from the number of loaded entries
with a non-null embedding (1).  The claim requires a rebuild (which would
yield the single stored embedding [1, 0]); the code instead installs the
stale two-vector artifact verbatim, because line 251 checks only file
existence and entry-list non-emptiness. -/
theorem C2_counterexample :
    (loadMemories (freshStore ℚ 2)
        (some [⟨"a", "conversation", [], 0, some [1, 0]⟩])
        (some [[0, 1], [9, 9]])).index = [[0, 1], [9, 9]] ∧
      ((loadMemories (freshStore ℚ 2)
          (some [⟨"a", "conversation", [], 0, some [1, 0]⟩])
          (some [[0, 1], [9, 9]])).memories.filter
          (fun m => m.embedding.isSome)).length = 1 ∧
      ¬ ((loadMemories (freshStore ℚ 2)
          (some [⟨"a", "conversation", [], 0, some [1, 0]⟩])
          (some [[0, 1], [9, 9]])).index
        = rebuildFromEmbeddings (freshStore ℚ 2).index
            ([⟨"a", "conversation", [], 0, some [1, 0]⟩].map fromDict)) := by
  refine ⟨?_, ?_, ?_⟩ <;> decide

/-- C2 (amended): load_memories rebuilds the index from the stored
embeddings (in entry order) only when the index artifact is missing or the
loaded entry list is empty; whenever the artifact exists and at least one
entry was loaded, the artifact is installed exactly as stored, with no
validation of its vector count against the entries. -/
theorem C2_load_trusts_existing_index (s : SemanticMemory ℚ)
    (data : List (EntryRecord ℚ)) (stored : List (List ℚ))
    (hne : data ≠ []) :
    (loadMemories s (some data) (some stored)).index = stored ∧
      (loadMemories s (some data) none).index
        = rebuildFromEmbeddings s.index (data.map fromDict) := by
  constructor
  · have hpos : 0 < (data.map fromDict).length := by
      simpa using List.length_pos.mpr hne
    simp only [loadMemories]
    rw [if_pos hpos]
  · simp [loadMemories]

/-- C2 witness: the amended theorem applied to a one-record entries file and
a one-vector artifact. -/
theorem C2_witness :
    (loadMemories (freshStore ℚ 2)
        (some [⟨"a", "conversation", [], 0, some [1, 0]⟩])
        (some [[1, 0]])).index = [[1, 0]] ∧
      (loadMemories (freshStore ℚ 2)
          (some [⟨"a", "conversation", [], 0, some [1, 0]⟩]) none).index
        = rebuildFromEmbeddings (freshStore ℚ 2).index
            ([⟨"a", "conversation", [], 0, some [1, 0]⟩].map fromDict) :=
  C2_load_trusts_existing_index (freshStore ℚ 2)
    [⟨"a", "conversation", [], 0, some [1, 0]⟩] [[1, 0]] (by simp)

/-- C5: a save followed by a load into a fresh instance reproduces an
equivalent store - the same entries (hence the same count and identical
content, entry_type, metadata and timestamp for each), and identical
search_memories results (same order, same entries, same scores) for every
query, k and threshold.  The hypothesis excludes entries carrying an empty
embedding vector, which the truthiness test at line 49 of from_dict would
turn into null; such a vector cannot arise from the encoder. -/
theorem C5_save_load_roundtrip (s : SemanticMemory ℚ)
    (hemb : ∀ m ∈ s.memories, m.embedding ≠ some []) :
    (saveLoadCycle s).memories.length = s.memories.length ∧
      (saveLoadCycle s).memories = s.memories ∧
      ∀ (normalize : List ℚ → List ℚ) (q : Option (List ℚ)) (k : Nat) (t : ℚ),
        searchMemories normalize (saveLoadCycle s) q k t
          = searchMemories normalize s q k t := by
  obtain ⟨dim, idx, mems⟩ := s
  have hmap : (mems.map toDict).map fromDict = mems :=
    map_fromDict_toDict mems (by simpa using hemb)
  by_cases hemp : mems = []
  · subst hemp
    have hstate : saveLoadCycle (⟨dim, idx, []⟩ : SemanticMemory ℚ)
        = ⟨dim, [], []⟩ := by
      simp [saveLoadCycle, loadMemories, saveMemories, freshStore,
        rebuildFromEmbeddings]
    rw [hstate]
    refine ⟨rfl, rfl, ?_⟩
    intro normalize q k t
    simp [searchMemories]
  · have hstate : saveLoadCycle (⟨dim, idx, mems⟩ : SemanticMemory ℚ)
        = ⟨dim, idx, mems⟩ := by
      simp only [saveLoadCycle, saveMemories, loadMemories, freshStore]
      rw [hmap]
      rw [if_pos (List.length_pos.mpr hemp)]
    rw [hstate]
    exact ⟨rfl, rfl, fun _ _ _ _ => rfl⟩

/-- C5 witness: the round-trip theorem applied to a concrete one-entry
store. -/
theorem C5_witness :
    (saveLoadCycle
        (⟨1, [[1]], [⟨"a", "conversation", [("k", "v")], 7, some [1]⟩]⟩
          : SemanticMemory ℚ)).memories
      = (⟨1, [[1]], [⟨"a", "conversation", [("k", "v")], 7, some [1]⟩]⟩
          : SemanticMemory ℚ).memories :=
  (C5_save_load_roundtrip
    (⟨1, [[1]], [⟨"a", "conversation", [("k", "v")], 7, some [1]⟩]⟩
      : SemanticMemory ℚ) (by decide)).2.1

/-- C6 counterexample: a store holding one entry without an embedding (a
valid state after loading a record with a null embedding) and a one-vector
index.  prune keeps the entry, so survivors exist but none has an
embedding; the `if embeddings:` guard at line 285 then skips the index
reset, leaving the index size 1 while the surviving-entries-with-embedding
count is 0. -/
theorem C6_counterexample :
    ¬ (indexSize
        (clearOldMemories
          (⟨1, [[5]], [⟨"a", "conversation", [], 0, none⟩]⟩ : SemanticMemory ℚ)
          0 1)
      = ((clearOldMemories
          (⟨1, [[5]], [⟨"a", "conversation", [], 0, none⟩]⟩ : SemanticMemory ℚ)
          0 1).memories.filter (fun m => m.embedding.isSome)).length) := by
  decide

/-- C6 (amended): after clear_old_memories every surviving entry has
timestamp at least now - days, and the survivors keep their original
relative order (they form a sublist of the old entry list).  The index size
equals the number of surviving entries with a non-null embedding whenever
some survivor has an embedding or no entry survives at all; in the
remaining case (survivors exist, none with an embedding) the index is left
unchanged. -/
theorem C6_prune (s : SemanticMemory ℚ) (now days : Int) :
    (∀ m ∈ (clearOldMemories s now days).memories,
        now - days * 86400 ≤ m.timestamp) ∧
      (clearOldMemories s now days).memories.Sublist s.memories ∧
      (((s.memories.filter
            (fun m => decide (now - days * 86400 ≤ m.timestamp))).filterMap
            (fun m => m.embedding) ≠ []
          ∨ s.memories.filter
              (fun m => decide (now - days * 86400 ≤ m.timestamp)) = []) →
        indexSize (clearOldMemories s now days)
          = ((clearOldMemories s now days).memories.filter
              (fun m => m.embedding.isSome)).length) ∧
      (s.memories.filter
          (fun m => decide (now - days * 86400 ≤ m.timestamp)) ≠ [] →
        (s.memories.filter
            (fun m => decide (now - days * 86400 ≤ m.timestamp))).filterMap
            (fun m => m.embedding) = [] →
        (clearOldMemories s now days).index = s.index) := by
  refine ⟨?_, ?_, ?_, ?_⟩
  · intro m hm
    have := List.mem_filter.mp hm
    simpa using this.2
  · exact List.filter_sublist s.memories
  · intro h
    rcases h with h | h
    · have hsur : s.memories.filter
          (fun m => decide (now - days * 86400 ≤ m.timestamp)) ≠ [] := by
        intro h0
        exact h (by rw [h0]; rfl)
      simp only [clearOldMemories, indexSize]
      rw [if_neg (by simpa [List.isEmpty_iff] using hsur)]
      rw [if_neg (by simpa [List.isEmpty_iff] using h)]
      exact length_filterMap_embedding _
    · simp only [clearOldMemories, indexSize]
      rw [if_pos (by simpa [List.isEmpty_iff] using h)]
      rw [h]
      rfl
  · intro hsur hemb
    simp only [clearOldMemories]
    rw [if_neg (by simpa [List.isEmpty_iff] using hsur)]
    rw [if_pos (by simpa [List.isEmpty_iff] using hemb)]

/-- C6 witness: the amended theorem instantiated at a store with one
embedded recent entry; both inner implications of the index clause are part
of the instantiated conclusion. -/
theorem C6_witness :
    (∀ m ∈ (clearOldMemories
        (⟨1, [[1]], [⟨"a", "conversation", [], 0, some [1]⟩]⟩ : SemanticMemory ℚ)
        0 1).memories, (0 : Int) - 1 * 86400 ≤ m.timestamp) ∧
      (clearOldMemories
          (⟨1, [[1]], [⟨"a", "conversation", [], 0, some [1]⟩]⟩ : SemanticMemory ℚ)
          0 1).memories.Sublist
        (⟨1, [[1]], [⟨"a", "conversation", [], 0, some [1]⟩]⟩
          : SemanticMemory ℚ).memories ∧
      ((((⟨1, [[1]], [⟨"a", "conversation", [], 0, some [1]⟩]⟩
            : SemanticMemory ℚ).memories.filter
            (fun m => decide ((0 : Int) - 1 * 86400 ≤ m.timestamp))).filterMap
            (fun m => m.embedding) ≠ []
          ∨ (⟨1, [[1]], [⟨"a", "conversation", [], 0, some [1]⟩]⟩
              : SemanticMemory ℚ).memories.filter
              (fun m => decide ((0 : Int) - 1 * 86400 ≤ m.timestamp)) = []) →
        indexSize (clearOldMemories
            (⟨1, [[1]], [⟨"a", "conversation", [], 0, some [1]⟩]⟩
              : SemanticMemory ℚ)
            0 1)
          = ((clearOldMemories
              (⟨1, [[1]], [⟨"a", "conversation", [], 0, some [1]⟩]⟩
                : SemanticMemory ℚ)
              0 1).memories.filter (fun m => m.embedding.isSome)).length) ∧
      ((⟨1, [[1]], [⟨"a", "conversation", [], 0, some [1]⟩]⟩
          : SemanticMemory ℚ).memories.filter
          (fun m => decide ((0 : Int) - 1 * 86400 ≤ m.timestamp)) ≠ [] →
        ((⟨1, [[1]], [⟨"a", "conversation", [], 0, some [1]⟩]⟩
            : SemanticMemory ℚ).memories.filter
            (fun m => decide ((0 : Int) - 1 * 86400 ≤ m.timestamp))).filterMap
            (fun m => m.embedding) = [] →
        (clearOldMemories
            (⟨1, [[1]], [⟨"a", "conversation", [], 0, some [1]⟩]⟩
              : SemanticMemory ℚ)
            0 1).index
          = (⟨1, [[1]], [⟨"a", "conversation", [], 0, some [1]⟩]⟩
              : SemanticMemory ℚ).index) :=
  C6_prune
    (⟨1, [[1]], [⟨"a", "conversation", [], 0, some [1]⟩]⟩ : SemanticMemory ℚ)
    0 1

theorem takeWithinBudget_sum_le (maxLen : Nat) (ts : List String) :
    ((takeWithinBudget maxLen 0 ts).map String.length).sum ≤ maxLen := by
  rcases takeWithinBudget_sum maxLen ts 0 with h | h
  · simpa using h
  · simp [h]

/-- C3 counterexample: a store with two recent conversation entries whose
rendered texts are 20 characters each, and a budget of 40.  The loop at
lines 168-174 counts 20 + 20 = 40 and accepts both, but the "\n".join at
line 176 inserts a separator the loop never counted, so the returned string
has 41 characters - more than max_chars. -/
theorem C3_counterexample :
    ¬ ((getConversationContext id
        (⟨2, [],
          [⟨"aaaaa", "conversation", [], 0, none⟩,
            ⟨"bbbbb", "conversation", [], 0, none⟩]⟩ : SemanticMemory ℚ)
        (some [1]) 40 0).length ≤ 40) := by
  decide

/-- C3 (amended): the string built by get_conversation_context is the
newline-join of a list of complete rendered entries (no entry is cut
mid-content: every piece of the output is the full rendering of some stored
entry), and the sum of the lengths of the included entry texts is at most
max_chars; the returned string itself can exceed max_chars by up to one
character per newline separator, that is by the number of included entries
minus one. -/
theorem C3_context_budget (normalize : List ℚ → List ℚ)
    (s : SemanticMemory ℚ) (q : Option (List ℚ)) (maxChars : Nat) (now : Int) :
    getConversationContext normalize s q maxChars now
        = joinLines (contextParts normalize s q maxChars now) ∧
      ((contextParts normalize s q maxChars now).map String.length).sum
        ≤ maxChars ∧
      (getConversationContext normalize s q maxChars now).length
        ≤ maxChars + (contextParts normalize s q maxChars now).length - 1 ∧
      ∀ txt ∈ contextParts normalize s q maxChars now,
        ∃ m ∈ s.memories, txt = renderEntry m := by
  have hcp : contextParts normalize s q maxChars now
      = takeWithinBudget maxChars 0
          ((stableSort ctxDescLe
            (dedupeByContent
              (searchMemories normalize s q 10 (1/5)
                ++ (getRecentMemories s now 2
                    (some ["conversation", "file_data"])).map (fun m => (m, 0)))
              [])).map (fun p => renderEntry p.1)) := rfl
  have hsum : ((contextParts normalize s q maxChars now).map String.length).sum
      ≤ maxChars := by
    rw [hcp]; exact takeWithinBudget_sum_le maxChars _
  refine ⟨rfl, hsum, ?_, ?_⟩
  · by_cases hemp : contextParts normalize s q maxChars now = []
    · simp [getConversationContext, hemp, joinLines]
    · have hlen := joinLines_length _ hemp
      have : (getConversationContext normalize s q maxChars now).length + 1
          = ((contextParts normalize s q maxChars now).map String.length).sum
            + (contextParts normalize s q maxChars now).length := hlen
      omega
  · intro txt htxt
    rw [hcp] at htxt
    have hmem := mem_of_mem_takeWithinBudget maxChars txt _ 0 htxt
    obtain ⟨p, hp, hrender⟩ := List.mem_map.mp hmem
    refine ⟨p.1, ?_, hrender.symm⟩
    have hp2 := mem_of_mem_dedupe p _ [] ((mem_stableSort _ p _).mp hp)
    rcases List.mem_append.mp hp2 with hp3 | hp3
    · exact fst_mem_memories_of_mem_search normalize s q 10 (1/5) p hp3
    · obtain ⟨m, hm, hpm⟩ := List.mem_map.mp hp3
      have : p.1 = m := by rw [← hpm]
      rw [this]
      exact mem_memories_of_mem_recent s now 2 _ m hm

/-- C8: add_memory stores only unit vectors.  Starting from a store whose
entry embeddings and index vectors all have Euclidean norm 1, after an add
whose encoder output is a nonzero vector of the right dimension every entry
embedding and every index vector still has norm exactly 1 (the new vector is
divided by its np.linalg.norm at line 87 before both appends), and the query
vector is likewise normalized to norm 1 at line 108 before the index search
uses it.  Exact norm 1 implies the claimed 1e-5 tolerance. -/
theorem C8_normalization_invariant (s : SemanticMemory ℝ)
    (content entry_type : String) (metadata : List (String × String))
    (now : Int) (v qv : List ℝ)
    (hv : npLinalgNorm v ≠ 0) (hq : npLinalgNorm qv ≠ 0)
    (hdim : (normalizeVec v).length = s.embedding_dim)
    (hstored : ∀ m ∈ s.memories, ∀ e, m.embedding = some e → npLinalgNorm e = 1)
    (hindex : ∀ w ∈ s.index, npLinalgNorm w = 1) :
    (∀ m ∈ (addMemory normalizeVec s content entry_type metadata now
        (some v)).memories, ∀ e, m.embedding = some e → npLinalgNorm e = 1) ∧
      (∀ w ∈ (addMemory normalizeVec s content entry_type metadata now
        (some v)).index, npLinalgNorm w = 1) ∧
      npLinalgNorm (normalizeVec qv) = 1 := by
  have hnew := npLinalgNorm_normalizeVec v hv
  have hmem : (addMemory normalizeVec s content entry_type metadata now
      (some v)).memories
      = s.memories
        ++ [⟨content, entry_type, metadata, now, some (normalizeVec v)⟩] := by
    simp [addMemory, hdim]
  have hidx : (addMemory normalizeVec s content entry_type metadata now
      (some v)).index = s.index ++ [normalizeVec v] := by
    simp [addMemory, hdim]
  refine ⟨?_, ?_, npLinalgNorm_normalizeVec qv hq⟩
  · intro m hm e he
    rw [hmem] at hm
    rcases List.mem_append.mp hm with hmm | hmm
    · exact hstored m hmm e he
    · have hme : m = ⟨content, entry_type, metadata, now,
          some (normalizeVec v)⟩ := by simpa using hmm
      rw [hme] at he
      simp only [MemoryEntry.embedding] at he
      cases he
      exact hnew
  · intro w hw
    rw [hidx] at hw
    rcases List.mem_append.mp hw with hww | hww
    · exact hindex w hww
    · have : w = normalizeVec v := by simpa using hww
      rw [this]
      exact hnew

/-- C8 witness: the theorem applied to a fresh two-dimensional store with
the encoder outputs [3, 4] (norm 5) for the content and [0, 2] (norm 2) for
the query. -/
theorem C8_witness :
    (∀ w ∈ (addMemory normalizeVec (freshStore ℝ 2) "a" "conversation" [] 0
        (some [3, 4])).index, npLinalgNorm w = 1) ∧
      npLinalgNorm (normalizeVec [(0 : ℝ), 2]) = 1 := by
  have h34 : npLinalgNorm [(3 : ℝ), 4] ≠ 0 := by
    have : sumSquares [(3 : ℝ), 4] = 25 := by
      norm_num [sumSquares]
    simp only [npLinalgNorm, this]
    positivity
  have h02 : npLinalgNorm [(0 : ℝ), 2] ≠ 0 := by
    have : sumSquares [(0 : ℝ), 2] = 4 := by
      norm_num [sumSquares]
    simp only [npLinalgNorm, this]
    positivity
  have h := C8_normalization_invariant (freshStore ℝ 2) "a" "conversation" [] 0
    [3, 4] [0, 2] h34 h02 (by simp [normalizeVec, freshStore])
    (by simp [freshStore]) (by simp [freshStore])
  exact ⟨h.2.1, h.2.2⟩

end MemorySystem
